import Mathlib

/-!
Verification development for the `SingleLinkedList` container
(src/single-linked-list/single-linked-list.h).

The container is embedded shallowly:

* value-level free comparison operators (`operator==`, `operator!=`,
  `operator<`, `operator>`, `operator<=`, `operator>=`) act on the element
  sequences the iterators traverse, so they are modelled as functions on
  `List α`;
* the container itself manipulates heap nodes through raw pointers, so it is
  modelled over an explicit heap: addresses are `Nat`, a node stores a value
  and an `Option Nat` next-link (`none` = `nullptr`), and every list handle
  records the address of its sentinel node together with the cached size.
-/

namespace SLL

/-- `std::equal(lhs.begin(), lhs.end(), rhs.begin())`: element-wise equality
driven by the first sequence; `operator==` only calls it after the
`GetSize()` comparison succeeded, so the second sequence is long enough. -/
def stdEqual [DecidableEq α] : List α → List α → Bool
  | [], _ => true
  | _ :: _, [] => false
  | a :: as, b :: bs => a == b && stdEqual as bs

/-- Free `operator==(lhs, rhs)`: identity short-circuit, then size
comparison, then `std::equal`.  In the value model the identity disjunct
`&lhs == &rhs` is absorbed: a list object always has the same sequence as
itself. -/
def eqOp [DecidableEq α] (a b : List α) : Bool :=
  a.length == b.length && stdEqual a b

/-- Free `operator!=(lhs, rhs)`: `!operator==(lhs, rhs)`. -/
def neOp [DecidableEq α] (a b : List α) : Bool :=
  !eqOp a b

/-- `std::lexicographical_compare(lhs.begin(), lhs.end(), rhs.begin(),
rhs.end())`. -/
def lexCompare [LinearOrder α] : List α → List α → Bool
  | [], [] => false
  | [], _ :: _ => true
  | _ :: _, [] => false
  | a :: as, b :: bs => if a < b then true else if b < a then false else lexCompare as bs

/-- Free `operator<(lhs, rhs)`: delegates to `std::lexicographical_compare`. -/
def ltOp [LinearOrder α] (a b : List α) : Bool :=
  lexCompare a b

/-- Free `operator>(lhs, rhs)` exactly as the source writes it:
`!operator<(lhs, rhs) || operator!=(lhs, rhs)`. -/
def gtOp [LinearOrder α] [DecidableEq α] (a b : List α) : Bool :=
  !ltOp a b || neOp a b

/-- Free `operator<=(lhs, rhs)`: `operator<(lhs, rhs) || operator==(lhs, rhs)`. -/
def leOp [LinearOrder α] [DecidableEq α] (a b : List α) : Bool :=
  ltOp a b || eqOp a b

/-- Free `operator>=(lhs, rhs)`: `!operator<(lhs, rhs)`. -/
def geOp [LinearOrder α] (a b : List α) : Bool :=
  !ltOp a b

/-- A list node: the stored `value` and the raw `next_node` pointer,
`none` standing for `nullptr`. -/
structure Node (α : Type) where
  value : α
  next_node : Option Nat
deriving DecidableEq

/-- The heap: `mem a` is the node stored at address `a` (`none` =
unallocated), and `fresh` is the lowest never-used address; `new` always
hands out `fresh`, so addresses are never recycled within a run. -/
structure Heap (α : Type) where
  mem : Nat → Option (Node α)
  fresh : Nat

/-- A `SingleLinkedList` object: the address `head_` of its sentinel node
(the sentinel lives in the heap like every other node) and the cached
`size_` counter. -/
structure ListH where
  head_ : Nat
  size_ : Nat
deriving DecidableEq

/-- A `BasicIterator`: the `node_` cursor, `none` standing for `nullptr`.
The mutable (`Iterator`) and read-only (`ConstIterator`) instantiations
share this representation; `ValueType` only changes the C++ type of the
references handed out on dereference. -/
structure Iter where
  node_ : Option Nat
deriving DecidableEq

/-- Store node `n` at address `a`. -/
def Heap.write (h : Heap α) (a : Nat) (n : Node α) : Heap α :=
  { h with mem := fun x => if x = a then some n else h.mem x }

/-- `delete`: deallocate address `a`. -/
def Heap.freeAt (h : Heap α) (a : Nat) : Heap α :=
  { h with mem := fun x => if x = a then none else h.mem x }

/-- `new Node(...)`: place the node at the next fresh address and return it. -/
def Heap.alloc (h : Heap α) (n : Node α) : Heap α × Nat :=
  ({ mem := fun x => if x = h.fresh then some n else h.mem x, fresh := h.fresh + 1 }, h.fresh)

/-- Read `a->next_node`.  Reading through an unallocated address is
undefined behaviour in the source; the model returns `none` there, and the
claims only ever read live nodes. -/
def nextOf (h : Heap α) (a : Nat) : Option Nat :=
  match h.mem a with
  | some n => n.next_node
  | none => none

/-- Write `a->next_node = nxt` (a no-op on an unallocated address, which is
undefined behaviour in the source). -/
def Heap.setNext (h : Heap α) (a : Nat) (nxt : Option Nat) : Heap α :=
  match h.mem a with
  | some n => h.write a { n with next_node := nxt }
  | none => h

/-- `BasicIterator::operator==`: true when both cursors are null; false when
exactly one is; otherwise it compares `node_->next_node` of the two
referenced nodes — successor identity, not node identity. -/
def iterEq (h : Heap α) (i j : Iter) : Bool :=
  match i.node_, j.node_ with
  | none, none => true
  | none, some _ => false
  | some _, none => false
  | some a, some b => nextOf h a == nextOf h b

/-- `BasicIterator::operator++`: `node_ = node_->next_node`.  A null cursor
trips the assert (undefined behaviour); the model leaves it null. -/
def iterInc (h : Heap α) (i : Iter) : Iter :=
  match i.node_ with
  | some a => ⟨nextOf h a⟩
  | none => ⟨none⟩

/-- `BasicIterator::operator*`: the referenced node's value, observed at the
meta level as an `Option` (null or dead cursors are undefined behaviour in
the source). -/
def iterDeref (h : Heap α) (i : Iter) : Option α :=
  match i.node_ with
  | some a => (h.mem a).map Node.value
  | none => none

/-- Default construction `SingleLinkedList()`: allocate the
default-constructed sentinel `head_`, size 0. -/
def mkList [Inhabited α] (h : Heap α) : Heap α × ListH :=
  let p := h.alloc ⟨default, none⟩
  (p.1, ⟨p.2, 0⟩)

/-- `head_.next_node`, the externally visible first-node pointer. -/
def headNext (h : Heap α) (l : ListH) : Option Nat :=
  nextOf h l.head_

/-- `GetSize()`: the cached counter. -/
def GetSize (l : ListH) : Nat :=
  l.size_

/-- `IsEmpty()`: `size_ == 0`. -/
def IsEmpty (l : ListH) : Bool :=
  l.size_ == 0

/-- `begin()` / `cbegin()`: `Iterator{head_.next_node}`. -/
def beginIt (h : Heap α) (l : ListH) : Iter :=
  ⟨headNext h l⟩

/-- `end()` / `cend()`: `Iterator{nullptr}`. -/
def endIt : Iter :=
  ⟨none⟩

/-- `before_begin()` / `cbefore_begin()`: `Iterator{&head_}`. -/
def beforeBegin (l : ListH) : Iter :=
  ⟨some l.head_⟩

/-- `PushFront(value)`: `head_.next_node = new Node(value, head_.next_node);
++size_;`. -/
def PushFront (h : Heap α) (l : ListH) (v : α) : Heap α × ListH :=
  let q := h.alloc ⟨v, nextOf h l.head_⟩
  (q.1.setNext l.head_ (some q.2), ⟨l.head_, l.size_ + 1⟩)

/-- `PopFront()`: guarded no-op when `IsEmpty() && head_.next_node ==
nullptr`; otherwise relink the sentinel to the second node, `--size_`,
`delete` the old first node.  The branch where `head_.next_node` is null but
the guard did not fire dereferences null in the source (undefined
behaviour); the model returns the state unchanged there. -/
def PopFront (h : Heap α) (l : ListH) : Heap α × ListH :=
  if l.size_ = 0 ∧ headNext h l = none then (h, l)
  else
    match headNext h l with
    | none => (h, l)
    | some p =>
      let h1 := h.setNext l.head_ (nextOf h p)
      (h1.freeAt p, ⟨l.head_, l.size_ - 1⟩)

/-- The `while (head_.next_node != nullptr) PopFront();` loop of `Clear()`,
run on explicit fuel. -/
def clearFuel : Nat → Heap α → ListH → Heap α × ListH
  | 0, h, l => (h, l)
  | f + 1, h, l =>
    if headNext h l = none then (h, l)
    else
      let q := PopFront h l
      clearFuel f q.1 q.2

/-- `Clear()`.  On every state satisfying the representation invariant the
chain holds exactly `size_` nodes and each `PopFront` removes one, so
`size_` is exactly the fuel the loop needs. -/
def Clear (h : Heap α) (l : ListH) : Heap α × ListH :=
  clearFuel l.size_ h l

/-- `InsertAfter(pos, value)`: `new Node(value, pos.node_->next_node)`, then
`pos.node_->next_node = ptr_to_insert`, `++size_`, return an iterator to the
new node.  A null `pos` trips the assert (undefined behaviour); the model
returns the state unchanged. -/
def InsertAfter (h : Heap α) (l : ListH) (pos : Iter) (v : α) : Heap α × ListH × Iter :=
  match pos.node_ with
  | none => (h, l, ⟨none⟩)
  | some p =>
    let q := h.alloc ⟨v, nextOf h p⟩
    (q.1.setNext p (some q.2), ⟨l.head_, l.size_ + 1⟩, ⟨some q.2⟩)

/-- `InsertAfter` with the element copy made explicit and fallible: `cp v`
is the copy `new Node(value, ...)` makes of `value`; when it fails the
exception propagates before any link is rewritten (the raw allocation is
released by the language runtime), mirroring the statement order of the
source.  `Except.error` carries the heap and list as the caller observes
them after the exception. -/
def InsertAfterF (cp : α → Option α) (h : Heap α) (l : ListH) (pos : Iter) (v : α) :
    Except (Heap α × ListH) (Heap α × ListH × Iter) :=
  match pos.node_ with
  | none => .error (h, l)
  | some p =>
    match cp v with
    | none => .error (h, l)
    | some w =>
      let q := h.alloc ⟨w, nextOf h p⟩
      .ok (q.1.setNext p (some q.2), ⟨l.head_, l.size_ + 1⟩, ⟨some q.2⟩)

/-- `EraseAfter(pos)`: unlink `pos.node_->next_node`, `--size_`, `delete`
it, return `Iterator{pos.node_->next_node}` (read after the relink).  A
null `pos` or a null successor dereferences null in the source (undefined
behaviour); the model returns the state unchanged there. -/
def EraseAfter (h : Heap α) (l : ListH) (pos : Iter) : Heap α × ListH × Iter :=
  match pos.node_ with
  | none => (h, l, ⟨none⟩)
  | some p =>
    match nextOf h p with
    | none => (h, l, ⟨none⟩)
    | some d =>
      let h1 := h.setNext p (nextOf h d)
      let h2 := h1.freeAt d
      (h2, ⟨l.head_, l.size_ - 1⟩, ⟨nextOf h2 p⟩)

/-- `swap(other)`: exchange `head_.next_node` of the two sentinels and the
two `size_` counters. -/
def swapOp (h : Heap α) (a b : ListH) : Heap α × ListH × ListH :=
  let an := headNext h a
  let bn := headNext h b
  let h1 := (h.setNext a.head_ bn).setNext b.head_ an
  (h1, ⟨a.head_, b.size_⟩, ⟨b.head_, a.size_⟩)

/-- The element-copy loop of `assign(from, to)`: append a copy of each
source value after `last`, counting into the temporary's `size_`. -/
def assignLoop (h : Heap α) (tmp : ListH) (last : Nat) : List α → Heap α × ListH
  | [] => (h, tmp)
  | v :: vs =>
    let q := h.alloc ⟨v, none⟩
    let h2 := q.1.setNext last (some q.2)
    assignLoop h2 ⟨tmp.head_, tmp.size_ + 1⟩ q.2 vs

/-- Walk the chain from a cursor collecting values, on explicit fuel; with
fuel `size_` this is exactly the sequence an iteration from `begin()` to
`end()` yields on a state satisfying the representation invariant. -/
def valsFuel (h : Heap α) : Nat → Option Nat → List α
  | 0, _ => []
  | _ + 1, none => []
  | f + 1, some a =>
    match h.mem a with
    | none => []
    | some n => n.value :: valsFuel h f n.next_node

/-- The observable element sequence of a list. -/
def listVals (h : Heap α) (l : ListH) : List α :=
  valsFuel h l.size_ (headNext h l)

/-- `assign(from, to)`: build a temporary list (`SingleLinkedList tmp = {}`
plus the copy loop), `swap(tmp)`, then `tmp` leaves scope — its destructor
`Clear`s what is now the old chain and its sentinel is released. -/
def assign [Inhabited α] (h : Heap α) (l : ListH) (vs : List α) : Heap α × ListH :=
  let m := mkList h
  let b := assignLoop m.1 m.2 m.2.head_ vs
  let s := swapOp b.1 l b.2
  let c := Clear s.1 s.2.2
  (c.1.freeAt m.2.head_, s.2.1)

/-- `SingleLinkedList(std::initializer_list<Type>)`: default-initialise,
then `assign(values)`. -/
def mkFromList [Inhabited α] (h : Heap α) (vs : List α) : Heap α × ListH :=
  let m := mkList h
  assign m.1 m.2 vs

/-- `SingleLinkedList(const SingleLinkedList&)`: default-initialise, then
`assign(other.begin(), other.end())` — the iteration collects `other`'s
element sequence. -/
def copyCtor [Inhabited α] (h : Heap α) (other : ListH) : Heap α × ListH :=
  let m := mkList h
  assign m.1 m.2 (listVals h other)

/-- Copy-assignment `operator=`: `if (this != &rhs) { SingleLinkedList
copy(rhs); swap(copy); }` — object identity is sentinel-address identity,
and `copy`'s destructor then frees what was `this`'s old chain. -/
def assignOp [Inhabited α] (h : Heap α) (l r : ListH) : Heap α × ListH :=
  if l.head_ = r.head_ then (h, l)
  else
    let c := copyCtor h r
    let s := swapOp c.1 l c.2
    let d := Clear s.1 s.2.2
    (d.1.freeAt c.2.head_, s.2.1)

/-- The chain reachable from a cursor: `ChainV h c as vs` says that
following `next_node` links from `c` until null visits exactly the live
nodes at addresses `as`, holding the values `vs`. -/
inductive ChainV (h : Heap α) : Option Nat → List Nat → List α → Prop
  | nil : ChainV h none [] []
  | cons {a : Nat} {n : Node α} {as : List Nat} {vs : List α} :
      h.mem a = some n → ChainV h n.next_node as vs →
      ChainV h (some a) (a :: as) (n.value :: vs)

/-- The representation invariant of a list, with the chain made explicit:
the sentinel is live, the chain from `head_.next_node` visits `as` holding
`vs`, the cached `size_` equals the number of reachable nodes, no node is
visited twice, the sentinel is not part of its own chain, and every
involved address has been allocated (is below `fresh`). -/
structure WFc (h : Heap α) (l : ListH) (as : List Nat) (vs : List α) : Prop where
  sentinel : (h.mem l.head_).isSome
  sentinelLt : l.head_ < h.fresh
  chain : ChainV h (headNext h l) as vs
  sizeEq : as.length = l.size_
  nodup : as.Nodup
  headNotIn : l.head_ ∉ as
  boundLt : ∀ a ∈ as, a < h.fresh

/-- The representation invariant of a list. -/
def WF (h : Heap α) (l : ListH) : Prop :=
  ∃ as vs, WFc h l as vs

/-! ### Heap access lemmas -/

theorem mem_write_self (h : Heap α) (a : Nat) (n : Node α) :
    (h.write a n).mem a = some n := by
  simp [Heap.write]

theorem mem_write_ne (h : Heap α) {a x : Nat} (n : Node α) (hx : x ≠ a) :
    (h.write a n).mem x = h.mem x := by
  simp [Heap.write, hx]

theorem fresh_write (h : Heap α) (a : Nat) (n : Node α) :
    (h.write a n).fresh = h.fresh := by
  simp [Heap.write]

theorem mem_freeAt_self (h : Heap α) (a : Nat) :
    (h.freeAt a).mem a = none := by
  simp [Heap.freeAt]

theorem mem_freeAt_ne (h : Heap α) {a x : Nat} (hx : x ≠ a) :
    (h.freeAt a).mem x = h.mem x := by
  simp [Heap.freeAt, hx]

theorem fresh_freeAt (h : Heap α) (a : Nat) :
    (h.freeAt a).fresh = h.fresh := by
  simp [Heap.freeAt]

theorem mem_alloc_self (h : Heap α) (n : Node α) :
    (h.alloc n).1.mem h.fresh = some n := by
  simp [Heap.alloc]

theorem mem_alloc_ne (h : Heap α) (n : Node α) {x : Nat} (hx : x ≠ h.fresh) :
    (h.alloc n).1.mem x = h.mem x := by
  simp [Heap.alloc, hx]

theorem fresh_alloc (h : Heap α) (n : Node α) :
    (h.alloc n).1.fresh = h.fresh + 1 := by
  simp [Heap.alloc]

theorem addr_alloc (h : Heap α) (n : Node α) :
    (h.alloc n).2 = h.fresh := rfl

theorem mem_setNext_ne (h : Heap α) {a x : Nat} (nxt : Option Nat) (hx : x ≠ a) :
    (h.setNext a nxt).mem x = h.mem x := by
  unfold Heap.setNext
  cases h.mem a with
  | none => rfl
  | some n => exact mem_write_ne h _ hx

theorem mem_setNext_self {h : Heap α} {a : Nat} {n : Node α} (hm : h.mem a = some n)
    (nxt : Option Nat) :
    (h.setNext a nxt).mem a = some { n with next_node := nxt } := by
  unfold Heap.setNext
  rw [hm]
  exact mem_write_self h a _

theorem fresh_setNext (h : Heap α) (a : Nat) (nxt : Option Nat) :
    (h.setNext a nxt).fresh = h.fresh := by
  unfold Heap.setNext
  cases h.mem a with
  | none => rfl
  | some n => exact fresh_write h a _

theorem nextOf_eq_of_mem {h : Heap α} {a : Nat} {n : Node α} (hm : h.mem a = some n) :
    nextOf h a = n.next_node := by
  unfold nextOf
  rw [hm]

theorem nextOf_congr {h h2 : Heap α} {a : Nat} (he : h2.mem a = h.mem a) :
    nextOf h2 a = nextOf h a := by
  unfold nextOf
  rw [he]

/-! ### Chain lemmas -/

theorem ChainV.congr {h h2 : Heap α} {c : Option Nat} {as : List Nat} {vs : List α}
    (hch : ChainV h c as vs) (hag : ∀ x ∈ as, h2.mem x = h.mem x) : ChainV h2 c as vs := by
  induction hch with
  | nil => exact ChainV.nil
  | cons hm _ ih =>
    exact ChainV.cons (by rw [hag _ (by simp)]; exact hm)
      (ih fun x hx => hag x (by simp [hx]))

theorem ChainV.length_eq {h : Heap α} {c : Option Nat} {as : List Nat} {vs : List α}
    (hch : ChainV h c as vs) : as.length = vs.length := by
  induction hch with
  | nil => rfl
  | cons _ _ ih => simpa using ih

theorem ChainV.valsFuel_eq {h : Heap α} {c : Option Nat} {as : List Nat} {vs : List α}
    (hch : ChainV h c as vs) : valsFuel h as.length c = vs := by
  induction hch with
  | nil => rfl
  | cons hm _ ih =>
    simp only [List.length_cons, valsFuel]
    rw [hm]
    simp [ih]

theorem ChainV.head_eq {h : Heap α} {c : Option Nat} {as : List Nat} {vs : List α}
    (hch : ChainV h c as vs) : c = as[0]? := by
  cases hch <;> simp

theorem ChainV.succ_eq {h : Heap α} {c : Option Nat} {as : List Nat} {vs : List α}
    (hch : ChainV h c as vs) : ∀ (k : Nat) (x : Nat), as[k]? = some x → nextOf h x = as[k + 1]? := by
  induction hch with
  | nil => intro k x hx; simp at hx
  | cons hm hch ih =>
    intro k x hx
    cases k with
    | zero =>
      simp at hx
      subst hx
      rw [nextOf_eq_of_mem hm]
      simpa using hch.head_eq
    | succ k => simpa using ih k x (by simpa using hx)

theorem ChainV.mem_isSome {h : Heap α} {c : Option Nat} {as : List Nat} {vs : List α}
    (hch : ChainV h c as vs) {x : Nat} (hx : x ∈ as) : (h.mem x).isSome := by
  induction hch with
  | nil => simp at hx
  | cons hm _ ih =>
    rcases List.mem_cons.mp hx with rfl | hx
    · simp [hm]
    · exact ih hx

theorem WFc.listVals_eq {h : Heap α} {l : ListH} {as : List Nat} {vs : List α}
    (w : WFc h l as vs) : listVals h l = vs := by
  unfold listVals
  rw [← w.sizeEq]
  exact w.chain.valsFuel_eq

/-! ### List index helpers -/

theorem getElem?_append_length (pre suf : List γ) : (pre ++ suf)[pre.length]? = suf[0]? := by
  induction pre with
  | nil => simp
  | cons a t ih => simpa using ih

theorem getElem?_append_length_cons (pre : List γ) (x : γ) (suf : List γ) :
    (pre ++ x :: suf)[pre.length]? = some x := by
  rw [getElem?_append_length]
  simp

theorem eraseIdx_append_length (pre : List γ) (x : γ) (suf : List γ) :
    (pre ++ x :: suf).eraseIdx pre.length = pre ++ suf := by
  induction pre with
  | nil => simp
  | cons a t ih => simp [ih]

/-! ### Operation lemmas -/

theorem mkList_wfc [Inhabited α] (h : Heap α) : WFc (mkList h).1 (mkList h).2 [] [] := by
  refine ⟨?_, ?_, ?_, ?_, ?_, ?_, ?_⟩
  · show ((h.alloc ⟨default, none⟩).1.mem h.fresh).isSome
    rw [mem_alloc_self]
    rfl
  · show h.fresh < (h.alloc ⟨default, none⟩).1.fresh
    rw [fresh_alloc]
    omega
  · show ChainV (h.alloc ⟨default, none⟩).1 (headNext (h.alloc ⟨default, none⟩).1 ⟨h.fresh, 0⟩) [] []
    have : headNext (h.alloc ⟨default, none⟩).1 ⟨h.fresh, 0⟩ = none := by
      unfold headNext
      rw [nextOf_eq_of_mem (mem_alloc_self h _)]
    rw [this]
    exact ChainV.nil
  · rfl
  · exact List.nodup_nil
  · simp
  · simp

theorem PushFront_wfc {h : Heap α} {l : ListH} {as : List Nat} {vs : List α}
    (w : WFc h l as vs) (v : α) :
    WFc (PushFront h l v).1 (PushFront h l v).2 (h.fresh :: as) (v :: vs) := by
  obtain ⟨sn, hsn⟩ := Option.isSome_iff_exists.mp w.sentinel
  have hne : l.head_ ≠ h.fresh := Nat.ne_of_lt w.sentinelLt
  have hmem1 : (h.alloc ⟨v, nextOf h l.head_⟩).1.mem l.head_ = some sn := by
    rw [mem_alloc_ne h _ hne, hsn]
  have hA : ((h.alloc ⟨v, nextOf h l.head_⟩).1.setNext l.head_ (some h.fresh)).mem h.fresh
      = some ⟨v, nextOf h l.head_⟩ := by
    rw [mem_setNext_ne _ _ (Ne.symm hne), mem_alloc_self]
  have hS : ((h.alloc ⟨v, nextOf h l.head_⟩).1.setNext l.head_ (some h.fresh)).mem l.head_
      = some { sn with next_node := some h.fresh } := mem_setNext_self hmem1 _
  have hfr : ((h.alloc ⟨v, nextOf h l.head_⟩).1.setNext l.head_ (some h.fresh)).fresh
      = h.fresh + 1 := by
    rw [fresh_setNext, fresh_alloc]
  refine ⟨?_, ?_, ?_, ?_, ?_, ?_, ?_⟩
  · show (((h.alloc ⟨v, nextOf h l.head_⟩).1.setNext l.head_ (some h.fresh)).mem l.head_).isSome
    rw [hS]
    rfl
  · show l.head_ < ((h.alloc ⟨v, nextOf h l.head_⟩).1.setNext l.head_ (some h.fresh)).fresh
    rw [hfr]
    exact Nat.lt_succ_of_lt w.sentinelLt
  · show ChainV ((h.alloc ⟨v, nextOf h l.head_⟩).1.setNext l.head_ (some h.fresh))
      (headNext ((h.alloc ⟨v, nextOf h l.head_⟩).1.setNext l.head_ (some h.fresh))
        ⟨l.head_, l.size_ + 1⟩) (h.fresh :: as) (v :: vs)
    have hh : headNext ((h.alloc ⟨v, nextOf h l.head_⟩).1.setNext l.head_ (some h.fresh))
        ⟨l.head_, l.size_ + 1⟩ = some h.fresh := by
      unfold headNext
      exact nextOf_eq_of_mem hS
    rw [hh]
    refine ChainV.cons hA ?_
    show ChainV _ (nextOf h l.head_) as vs
    refine w.chain.congr ?_
    intro x hx
    rw [mem_setNext_ne _ _ (by rintro rfl; exact w.headNotIn hx),
      mem_alloc_ne h _ (Nat.ne_of_lt (w.boundLt x hx))]
  · show as.length + 1 = l.size_ + 1
    rw [w.sizeEq]
  · exact List.nodup_cons.mpr ⟨fun hx => Nat.lt_irrefl _ (w.boundLt _ hx), w.nodup⟩
  · intro hx
    rcases List.mem_cons.mp hx with he | hx
    · exact hne he
    · exact w.headNotIn hx
  · intro x hx
    show x < ((h.alloc ⟨v, nextOf h l.head_⟩).1.setNext l.head_ (some h.fresh)).fresh
    rw [hfr]
    rcases List.mem_cons.mp hx with rfl | hx
    · omega
    · exact Nat.lt_succ_of_lt (w.boundLt x hx)

theorem headNext_of_chain {h : Heap α} {l : ListH} {as : List Nat} {vs : List α}
    (w : WFc h l as vs) : headNext h l = as[0]? := w.chain.head_eq

theorem PopFront_empty {h : Heap α} {l : ListH} (hsz : l.size_ = 0)
    (hhn : headNext h l = none) : PopFront h l = (h, l) := by
  unfold PopFront
  rw [if_pos ⟨hsz, hhn⟩]

theorem PopFront_cons {h : Heap α} {l : ListH} {a : Nat} {as : List Nat} {v : α} {vs : List α}
    (w : WFc h l (a :: as) (v :: vs)) :
    WFc (PopFront h l).1 (PopFront h l).2 as vs ∧
    (PopFront h l).2 = ⟨l.head_, l.size_ - 1⟩ ∧
    (PopFront h l).1.mem a = none ∧
    (PopFront h l).1.fresh = h.fresh ∧
    (∀ x, x ≠ l.head_ → x ≠ a → (PopFront h l).1.mem x = h.mem x) ∧
    PopFront h l = ((h.setNext l.head_ (nextOf h a)).freeAt a, ⟨l.head_, l.size_ - 1⟩) := by
  obtain ⟨sn, hsn⟩ := Option.isSome_iff_exists.mp w.sentinel
  have hha : l.head_ ≠ a := fun he => w.headNotIn (he ▸ List.mem_cons_self a as)
  have hhn : headNext h l = some a := by
    have := w.chain.head_eq
    simpa using this
  have hch2 := w.chain
  rw [hhn] at hch2
  cases hch2 with
  | cons hm hc =>
  rename_i n
  have hpop : PopFront h l
      = ((h.setNext l.head_ (nextOf h a)).freeAt a, ⟨l.head_, l.size_ - 1⟩) := by
    unfold PopFront
    rw [if_neg (by rw [hhn]; rintro ⟨-, hcon⟩; exact Option.noConfusion hcon), hhn]
  have hS : ((h.setNext l.head_ (nextOf h a)).freeAt a).mem l.head_
      = some { sn with next_node := nextOf h a } := by
    rw [mem_freeAt_ne _ hha, mem_setNext_self hsn]
  have hfr : ((h.setNext l.head_ (nextOf h a)).freeAt a).fresh = h.fresh := by
    rw [fresh_freeAt, fresh_setNext]
  have hnd := List.nodup_cons.mp w.nodup
  refine ⟨⟨?_, ?_, ?_, ?_, ?_, ?_, ?_⟩, by rw [hpop], ?_, ?_, ?_, hpop⟩
  · rw [hpop]
    show (((h.setNext l.head_ (nextOf h a)).freeAt a).mem l.head_).isSome
    rw [hS]
    rfl
  · rw [hpop]
    show l.head_ < ((h.setNext l.head_ (nextOf h a)).freeAt a).fresh
    rw [hfr]
    exact w.sentinelLt
  · rw [hpop]
    show ChainV ((h.setNext l.head_ (nextOf h a)).freeAt a)
      (headNext ((h.setNext l.head_ (nextOf h a)).freeAt a) ⟨l.head_, l.size_ - 1⟩) as vs
    have hh : headNext ((h.setNext l.head_ (nextOf h a)).freeAt a) ⟨l.head_, l.size_ - 1⟩
        = nextOf h a := by
      unfold headNext
      exact nextOf_eq_of_mem hS
    rw [hh, nextOf_eq_of_mem hm]
    refine hc.congr ?_
    intro x hx
    rw [mem_freeAt_ne _ (by rintro rfl; exact hnd.1 hx),
      mem_setNext_ne _ _ (by rintro rfl; exact w.headNotIn (List.mem_cons_of_mem a hx))]
  · rw [hpop]
    show as.length = l.size_ - 1
    have := w.sizeEq
    simp only [List.length_cons] at this
    omega
  · exact hnd.2
  · rw [hpop]
    exact fun hx => w.headNotIn (List.mem_cons_of_mem a hx)
  · intro x hx
    rw [hpop]
    show x < ((h.setNext l.head_ (nextOf h a)).freeAt a).fresh
    rw [hfr]
    exact w.boundLt x (List.mem_cons_of_mem a hx)
  · rw [hpop]
    exact mem_freeAt_self _ a
  · rw [hpop]
    exact hfr
  · intro x hxh hxa
    rw [hpop]
    show (((h.setNext l.head_ (nextOf h a)).freeAt a).mem x) = h.mem x
    rw [mem_freeAt_ne _ hxa, mem_setNext_ne _ _ hxh]

theorem clearFuel_wfc {as : List Nat} :
    ∀ {vs : List α} {h : Heap α} {l : ListH}, WFc h l as vs →
    WFc (clearFuel as.length h l).1 (clearFuel as.length h l).2 [] [] ∧
    (clearFuel as.length h l).2 = ⟨l.head_, 0⟩ ∧
    (clearFuel as.length h l).1.fresh = h.fresh ∧
    (∀ x, x ≠ l.head_ → x ∉ as → (clearFuel as.length h l).1.mem x = h.mem x) := by
  induction as with
  | nil =>
    intro vs h l w
    have hvs : vs = [] := by
      have := w.chain.length_eq
      simp only [List.length_nil] at this
      exact (List.length_eq_zero.mp this.symm)
    subst hvs
    have hsz : l.size_ = 0 := by simpa using w.sizeEq.symm
    refine ⟨w, ?_, rfl, fun x _ _ => rfl⟩
    obtain ⟨lh, ls⟩ := l
    simp only at hsz
    subst hsz
    rfl
  | cons a as ih =>
    intro vs h l w
    have hhn : headNext h l = some a := by simpa using w.chain.head_eq
    cases vs with
    | nil =>
      exfalso
      have := w.chain.length_eq
      simp at this
    | cons v vs =>
    obtain ⟨w2, hl2, _, hfr2, hframe2, -⟩ := PopFront_cons w
    have hstep : clearFuel (a :: as).length h l
        = clearFuel as.length (PopFront h l).1 (PopFront h l).2 := by
      simp only [List.length_cons, clearFuel]
      rw [if_neg (by rw [hhn]; exact fun hcon => Option.noConfusion hcon)]
    obtain ⟨w3, hl3, hfr3, hframe3⟩ := ih w2
    have hhead2 : (PopFront h l).2.head_ = l.head_ := by rw [hl2]
    rw [hstep]
    refine ⟨w3, ?_, ?_, ?_⟩
    · rw [hl3, hhead2]
    · rw [hfr3, hfr2]
    · intro x hxh hxmem
      rw [hframe3 x (by rw [hhead2]; exact hxh) (fun hc => hxmem (List.mem_cons_of_mem a hc)),
        hframe2 x hxh (fun hc => hxmem (hc ▸ List.mem_cons_self a as))]

theorem Clear_wfc {h : Heap α} {l : ListH} {as : List Nat} {vs : List α} (w : WFc h l as vs) :
    WFc (Clear h l).1 (Clear h l).2 [] [] ∧
    (Clear h l).2 = ⟨l.head_, 0⟩ ∧
    (Clear h l).1.fresh = h.fresh ∧
    (∀ x, x ≠ l.head_ → x ∉ as → (Clear h l).1.mem x = h.mem x) := by
  have hsz : l.size_ = as.length := w.sizeEq.symm
  unfold Clear
  rw [hsz]
  exact clearFuel_wfc w

theorem ChainV.insert_mid {h : Heap α} (v : α) {p : Nat} {n : Node α} (hmem : h.mem p = some n) :
    ∀ {c : Option Nat} {as : List Nat} {vs : List α},
      ChainV h c as vs → as.Nodup → (∀ x ∈ as, x < h.fresh) → p ∈ as →
      ∃ as1 as2 vs1 vs2,
        as = as1 ++ p :: as2 ∧ vs = vs1 ++ n.value :: vs2 ∧ as1.length = vs1.length ∧
        ChainV ((h.alloc ⟨v, nextOf h p⟩).1.setNext p (some h.fresh)) c
          (as1 ++ p :: h.fresh :: as2) (vs1 ++ n.value :: v :: vs2) := by
  intro c as vs hch
  induction hch with
  | nil =>
    intro _ _ hp
    simp at hp
  | cons hm hc ih =>
    rename_i a na as' vs'
    intro hnd hbd hp
    have hndc := List.nodup_cons.mp hnd
    have haf : a < h.fresh := hbd a (List.mem_cons_self a as')
    by_cases hap : a = p
    · subst hap
      have hna : na = n := by rw [hm] at hmem; exact Option.some.inj hmem
      subst hna
      refine ⟨[], as', [], vs', rfl, rfl, rfl, ?_⟩
      simp only [List.nil_append]
      have hmem1 : (h.alloc ⟨v, nextOf h a⟩).1.mem a = some na :=
        by rw [mem_alloc_ne h _ (Nat.ne_of_lt haf), hm]
      refine ChainV.cons (n := { na with next_node := some h.fresh })
        (mem_setNext_self hmem1 _) ?_
      refine ChainV.cons (n := ⟨v, nextOf h a⟩) ?_ ?_
      · rw [mem_setNext_ne _ _ (Ne.symm (Nat.ne_of_lt haf)), mem_alloc_self]
      · show ChainV _ (nextOf h a) as' vs'
        rw [nextOf_eq_of_mem hm]
        refine hc.congr ?_
        intro x hx
        rw [mem_setNext_ne _ _ (by rintro rfl; exact hndc.1 hx),
          mem_alloc_ne h _ (Nat.ne_of_lt (hbd x (List.mem_cons_of_mem a hx)))]
    · have hp' : p ∈ as' := by
        rcases List.mem_cons.mp hp with he | hx
        · exact absurd he.symm hap
        · exact hx
      obtain ⟨as1, as2, vs1, vs2, he1, he2, hlen, hchain⟩ :=
        ih hndc.2 (fun x hx => hbd x (List.mem_cons_of_mem a hx)) hp'
      refine ⟨a :: as1, as2, na.value :: vs1, vs2, ?_, ?_, ?_, ?_⟩
      · rw [he1]; rfl
      · rw [he2]; rfl
      · simpa using hlen
      · simp only [List.cons_append]
        refine ChainV.cons ?_ hchain
        rw [mem_setNext_ne _ _ hap, mem_alloc_ne h _ (Nat.ne_of_lt haf), hm]

theorem ChainV.erase_mid {h : Heap α} {p d : Nat} {n : Node α}
    (hmem : h.mem p = some n) (hnext : n.next_node = some d) :
    ∀ {c : Option Nat} {as : List Nat} {vs : List α},
      ChainV h c as vs → as.Nodup → p ∈ as →
      ∃ as1 as2 vs1 vs2 m, h.mem d = some m ∧
        as = as1 ++ p :: d :: as2 ∧ vs = vs1 ++ n.value :: m.value :: vs2 ∧
        as1.length = vs1.length ∧
        ChainV ((h.setNext p (nextOf h d)).freeAt d) c (as1 ++ p :: as2)
          (vs1 ++ n.value :: vs2) := by
  intro c as vs hch
  induction hch with
  | nil =>
    intro _ hp
    simp at hp
  | cons hm hc ih =>
    rename_i a na as' vs'
    intro hnd hp
    have hndc := List.nodup_cons.mp hnd
    by_cases hap : a = p
    · subst hap
      have hna : na = n := by rw [hm] at hmem; exact Option.some.inj hmem
      subst hna
      rw [hnext] at hc
      cases hc with
      | cons hm2 hc2 =>
      rename_i m as2 vs2
      have had : a ≠ d := fun he => hndc.1 (he ▸ List.mem_cons_self d as2)
      have hnd2 := List.nodup_cons.mp hndc.2
      refine ⟨[], as2, [], vs2, m, hm2, rfl, rfl, rfl, ?_⟩
      simp only [List.nil_append]
      refine ChainV.cons (n := ⟨na.value, nextOf h d⟩) ?_ ?_
      · rw [mem_freeAt_ne _ had, mem_setNext_self hm]
      · show ChainV _ (nextOf h d) as2 vs2
        rw [nextOf_eq_of_mem hm2]
        refine hc2.congr ?_
        intro x hx
        rw [mem_freeAt_ne _ (by rintro rfl; exact hnd2.1 hx),
          mem_setNext_ne _ _ (by rintro rfl; exact hndc.1 (List.mem_cons_of_mem d hx))]
    · have hp' : p ∈ as' := by
        rcases List.mem_cons.mp hp with he | hx
        · exact absurd he.symm hap
        · exact hx
      obtain ⟨as1, as2, vs1, vs2, m, hm2, he1, he2, hlen, hchain⟩ := ih hndc.2 hp'
      have had : a ≠ d := by
        rintro rfl
        exact hndc.1 (by rw [he1]; simp)
      refine ⟨a :: as1, as2, na.value :: vs1, vs2, m, hm2, ?_, ?_, ?_, ?_⟩
      · rw [he1]; rfl
      · rw [he2]; rfl
      · simpa using hlen
      · simp only [List.cons_append]
        refine ChainV.cons ?_ hchain
        rw [mem_freeAt_ne _ had, mem_setNext_ne _ _ hap, hm]

/-- Transport a representation invariant to a heap that agrees on the
sentinel and the chain and whose allocation frontier has not receded. -/
theorem WFc.transport {h h2 : Heap α} {l : ListH} {as : List Nat} {vs : List α}
    (w : WFc h l as vs) (hfr : h.fresh ≤ h2.fresh)
    (hsent : h2.mem l.head_ = h.mem l.head_)
    (hag : ∀ x ∈ as, h2.mem x = h.mem x) : WFc h2 l as vs := by
  have hhn : headNext h2 l = headNext h l := by
    unfold headNext nextOf
    rw [hsent]
  refine ⟨?_, ?_, ?_, w.sizeEq, w.nodup, w.headNotIn, ?_⟩
  · rw [hsent]
    exact w.sentinel
  · exact Nat.lt_of_lt_of_le w.sentinelLt hfr
  · rw [hhn]
    exact w.chain.congr hag
  · intro x hx
    exact Nat.lt_of_lt_of_le (w.boundLt x hx) hfr

theorem swapOp_wfc {h : Heap α} {a b : ListH} {asa : List Nat} {vsa : List α}
    {asb : List Nat} {vsb : List α}
    (wa : WFc h a asa vsa) (wb : WFc h b asb vsb)
    (hab : a.head_ ≠ b.head_) (hanb : a.head_ ∉ asb) (hbna : b.head_ ∉ asa) :
    WFc (swapOp h a b).1 (swapOp h a b).2.1 asb vsb ∧
    WFc (swapOp h a b).1 (swapOp h a b).2.2 asa vsa := by
  obtain ⟨sa, hsa⟩ := Option.isSome_iff_exists.mp wa.sentinel
  obtain ⟨sb, hsb⟩ := Option.isSome_iff_exists.mp wb.sentinel
  have hma : ((h.setNext a.head_ (headNext h b)).setNext b.head_ (headNext h a)).mem a.head_
      = some { sa with next_node := headNext h b } := by
    rw [mem_setNext_ne _ _ hab, mem_setNext_self hsa]
  have hmb : ((h.setNext a.head_ (headNext h b)).setNext b.head_ (headNext h a)).mem b.head_
      = some { sb with next_node := headNext h a } := by
    rw [mem_setNext_self (by rw [mem_setNext_ne _ _ (Ne.symm hab)]; exact hsb)]
  have hfr : ((h.setNext a.head_ (headNext h b)).setNext b.head_ (headNext h a)).fresh
      = h.fresh := by
    rw [fresh_setNext, fresh_setNext]
  have hagb : ∀ x ∈ asb,
      ((h.setNext a.head_ (headNext h b)).setNext b.head_ (headNext h a)).mem x = h.mem x := by
    intro x hx
    rw [mem_setNext_ne _ _ (by rintro rfl; exact wb.headNotIn hx),
      mem_setNext_ne _ _ (by rintro rfl; exact hanb hx)]
  have haga : ∀ x ∈ asa,
      ((h.setNext a.head_ (headNext h b)).setNext b.head_ (headNext h a)).mem x = h.mem x := by
    intro x hx
    rw [mem_setNext_ne _ _ (by rintro rfl; exact hbna hx),
      mem_setNext_ne _ _ (by rintro rfl; exact wa.headNotIn hx)]
  constructor
  · refine ⟨?_, ?_, ?_, ?_, wb.nodup, hanb, ?_⟩
    · show (((h.setNext a.head_ (headNext h b)).setNext b.head_ (headNext h a)).mem
        a.head_).isSome
      rw [hma]
      rfl
    · show a.head_ < ((h.setNext a.head_ (headNext h b)).setNext b.head_ (headNext h a)).fresh
      rw [hfr]
      exact wa.sentinelLt
    · show ChainV ((h.setNext a.head_ (headNext h b)).setNext b.head_ (headNext h a))
        (headNext ((h.setNext a.head_ (headNext h b)).setNext b.head_ (headNext h a))
          ⟨a.head_, b.size_⟩) asb vsb
      have hh : headNext ((h.setNext a.head_ (headNext h b)).setNext b.head_ (headNext h a))
          ⟨a.head_, b.size_⟩ = headNext h b := nextOf_eq_of_mem hma
      rw [hh]
      exact wb.chain.congr hagb
    · exact wb.sizeEq
    · intro x hx
      show x < ((h.setNext a.head_ (headNext h b)).setNext b.head_ (headNext h a)).fresh
      rw [hfr]
      exact wb.boundLt x hx
  · refine ⟨?_, ?_, ?_, ?_, wa.nodup, hbna, ?_⟩
    · show (((h.setNext a.head_ (headNext h b)).setNext b.head_ (headNext h a)).mem
        b.head_).isSome
      rw [hmb]
      rfl
    · show b.head_ < ((h.setNext a.head_ (headNext h b)).setNext b.head_ (headNext h a)).fresh
      rw [hfr]
      exact wb.sentinelLt
    · show ChainV ((h.setNext a.head_ (headNext h b)).setNext b.head_ (headNext h a))
        (headNext ((h.setNext a.head_ (headNext h b)).setNext b.head_ (headNext h a))
          ⟨b.head_, a.size_⟩) asa vsa
      have hh : headNext ((h.setNext a.head_ (headNext h b)).setNext b.head_ (headNext h a))
          ⟨b.head_, a.size_⟩ = headNext h a := nextOf_eq_of_mem hmb
      rw [hh]
      exact wa.chain.congr haga
    · exact wa.sizeEq
    · intro x hx
      show x < ((h.setNext a.head_ (headNext h b)).setNext b.head_ (headNext h a)).fresh
      rw [hfr]
      exact wa.boundLt x hx

theorem assignLoop_spec :
    ∀ (vs : List α) (h : Heap α) (tmp : ListH) (last : Nat) (n : Node α),
      h.mem last = some n → n.next_node = none → last < h.fresh →
      ∃ as c,
        (assignLoop h tmp last vs).1.mem last = some ⟨n.value, c⟩ ∧
        ChainV (assignLoop h tmp last vs).1 c as vs ∧
        as.Nodup ∧
        (∀ x ∈ as, h.fresh ≤ x ∧ x < (assignLoop h tmp last vs).1.fresh) ∧
        h.fresh ≤ (assignLoop h tmp last vs).1.fresh ∧
        (∀ x, x ≠ last → x ∉ as → (assignLoop h tmp last vs).1.mem x = h.mem x) ∧
        (assignLoop h tmp last vs).2.head_ = tmp.head_ ∧
        (assignLoop h tmp last vs).2.size_ = tmp.size_ + vs.length := by
  intro vs
  induction vs with
  | nil =>
    intro h tmp last n hmem hnone _
    refine ⟨[], none, ?_, ChainV.nil, List.nodup_nil, by simp, Nat.le_refl _,
      fun x _ _ => rfl, rfl, rfl⟩
    show h.mem last = some ⟨n.value, none⟩
    rw [hmem]
    cases n
    simp_all
  | cons v vs ih =>
    intro h tmp last n hmem hnone hlt
    have hlast_ne : last ≠ h.fresh := Nat.ne_of_lt hlt
    have hmemA : ((h.alloc ⟨v, none⟩).1.setNext last (some h.fresh)).mem h.fresh
        = some ⟨v, none⟩ := by
      rw [mem_setNext_ne _ _ (Ne.symm hlast_ne), mem_alloc_self]
    have hmemL : ((h.alloc ⟨v, none⟩).1.setNext last (some h.fresh)).mem last
        = some { n with next_node := some h.fresh } :=
      mem_setNext_self (by rw [mem_alloc_ne h _ hlast_ne]; exact hmem) _
    have hfr2 : ((h.alloc ⟨v, none⟩).1.setNext last (some h.fresh)).fresh = h.fresh + 1 := by
      rw [fresh_setNext, fresh_alloc]
    obtain ⟨as, c, hlastR, hchainR, hnodupR, hboundR, hfrR, hframeR, hheadR, hsizeR⟩ :=
      ih ((h.alloc ⟨v, none⟩).1.setNext last (some h.fresh))
        ⟨tmp.head_, tmp.size_ + 1⟩ h.fresh ⟨v, none⟩ hmemA rfl (by rw [hfr2]; omega)
    rw [hfr2] at hboundR hfrR
    have hT : assignLoop h tmp last (v :: vs)
        = assignLoop ((h.alloc ⟨v, none⟩).1.setNext last (some h.fresh))
            ⟨tmp.head_, tmp.size_ + 1⟩ h.fresh vs := rfl
    have hAnotin : h.fresh ∉ as := fun hx => by
      have := (hboundR _ hx).1
      omega
    have hlast_notin : last ∉ as := fun hx => by
      have := (hboundR _ hx).1
      omega
    refine ⟨h.fresh :: as, some h.fresh, ?_, ?_, ?_, ?_, ?_, ?_, ?_, ?_⟩
    · rw [hT, hframeR last hlast_ne hlast_notin, hmemL]
    · rw [hT]
      exact ChainV.cons (n := ⟨v, c⟩) hlastR hchainR
    · exact List.nodup_cons.mpr ⟨hAnotin, hnodupR⟩
    · intro x hx
      rw [hT]
      rcases List.mem_cons.mp hx with rfl | hx
      · exact ⟨Nat.le_refl _, by omega⟩
      · have := hboundR x hx
        exact ⟨by omega, this.2⟩
    · rw [hT]
      omega
    · intro x hxl hxmem
      rw [hT, hframeR x (fun he => hxmem (by rw [he]; exact List.mem_cons_self _ _))
          (fun hc => hxmem (List.mem_cons_of_mem _ hc)),
        mem_setNext_ne _ _ hxl, mem_alloc_ne h _
          (fun he => hxmem (by rw [he]; exact List.mem_cons_self _ _))]
    · rw [hT, hheadR]
    · rw [hT, hsizeR]
      show tmp.size_ + 1 + vs.length = tmp.size_ + (v :: vs).length
      simp only [List.length_cons]
      omega

theorem assign_spec [Inhabited α] {h : Heap α} {l : ListH} {as : List Nat} {vs : List α}
    (w : WFc h l as vs) (nvs : List α) :
    ∃ bs, WFc (assign h l nvs).1 (assign h l nvs).2 bs nvs ∧
      (∀ x ∈ bs, h.fresh < x) ∧
      (assign h l nvs).2.head_ = l.head_ ∧
      (assign h l nvs).2.size_ = nvs.length ∧
      h.fresh ≤ (assign h l nvs).1.fresh ∧
      (∀ x, x < h.fresh → x ≠ l.head_ → x ∉ as → (assign h l nvs).1.mem x = h.mem x) := by
  set B := assignLoop (h.alloc (⟨default, none⟩ : Node α)).1 ⟨h.fresh, 0⟩ h.fresh nvs with hBdef
  obtain ⟨bs, c, hlastB, hchainB, hnodupB, hboundB, hfrB, hframeB, hheadB, hsizeB⟩ :=
    assignLoop_spec nvs (h.alloc (⟨default, none⟩ : Node α)).1 ⟨h.fresh, 0⟩ h.fresh
      ⟨default, none⟩ (mem_alloc_self h _) rfl (by rw [fresh_alloc]; omega)
  rw [← hBdef] at hlastB hchainB hboundB hfrB hframeB hheadB hsizeB
  rw [fresh_alloc] at hboundB hfrB
  have hassign : assign h l nvs
      = ((Clear (swapOp B.1 l B.2).1 (swapOp B.1 l B.2).2.2).1.freeAt h.fresh,
         (swapOp B.1 l B.2).2.1) := rfl
  have hB2h : B.2.head_ = h.fresh := hheadB
  have hB2s : B.2.size_ = nvs.length := by
    rw [hsizeB]
    show 0 + nvs.length = nvs.length
    omega
  have hagAll : ∀ x, x < h.fresh → B.1.mem x = h.mem x := by
    intro x hx
    rw [hframeB x (Nat.ne_of_lt hx) (fun hc => by have := (hboundB x hc).1; omega),
      mem_alloc_ne h _ (Nat.ne_of_lt hx)]
  have wlB : WFc B.1 l as vs :=
    w.transport (by omega) (hagAll _ w.sentinelLt) (fun x hx => hagAll x (w.boundLt x hx))
  have hfreshNotinAs : h.fresh ∉ as := fun hc => by
    have := w.boundLt _ hc
    omega
  have hheadNotinBs : l.head_ ∉ bs := fun hc => by
    have := (hboundB _ hc).1
    have := w.sentinelLt
    omega
  have wB2 : WFc B.1 B.2 bs nvs := by
    refine ⟨?_, ?_, ?_, ?_, hnodupB, ?_, ?_⟩
    · rw [hB2h, hlastB]
      rfl
    · rw [hB2h]
      omega
    · show ChainV B.1 (nextOf B.1 B.2.head_) bs nvs
      rw [hB2h, nextOf_eq_of_mem hlastB]
      exact hchainB
    · rw [hB2s, hchainB.length_eq]
    · rw [hB2h]
      exact fun hc => by have := (hboundB _ hc).1; omega
    · exact fun x hx => (hboundB x hx).2
  obtain ⟨wS1, wS2⟩ := swapOp_wfc wlB wB2
    (by rw [hB2h]; exact Nat.ne_of_lt w.sentinelLt) hheadNotinBs
    (by rw [hB2h]; exact hfreshNotinAs)
  have hS22h : (swapOp B.1 l B.2).2.2.head_ = h.fresh := hB2h
  have hS21h : (swapOp B.1 l B.2).2.1.head_ = l.head_ := rfl
  have hS21s : (swapOp B.1 l B.2).2.1.size_ = nvs.length := hB2s
  have hSfr : (swapOp B.1 l B.2).1.fresh = B.1.fresh := by
    show ((B.1.setNext l.head_ (headNext B.1 B.2)).setNext B.2.head_ (headNext B.1 l)).fresh
      = B.1.fresh
    rw [fresh_setNext, fresh_setNext]
  have hSmem : ∀ x, x ≠ l.head_ → x ≠ h.fresh → (swapOp B.1 l B.2).1.mem x = B.1.mem x := by
    intro x hx1 hx2
    show ((B.1.setNext l.head_ (headNext B.1 B.2)).setNext B.2.head_ (headNext B.1 l)).mem x
      = B.1.mem x
    rw [mem_setNext_ne _ _ (by rw [hB2h]; exact hx2), mem_setNext_ne _ _ hx1]
  obtain ⟨wC, hC2, hCfr, hCframe⟩ := Clear_wfc wS2
  have hheadNe : l.head_ ≠ h.fresh := Nat.ne_of_lt w.sentinelLt
  have wS1C : WFc (Clear (swapOp B.1 l B.2).1 (swapOp B.1 l B.2).2.2).1
      (swapOp B.1 l B.2).2.1 bs nvs := by
    refine wS1.transport (by rw [hCfr]) ?_ ?_
    · rw [hCframe _ (by rw [hS22h]; exact hS21h ▸ hheadNe) (hS21h ▸ w.headNotIn)]
    · intro x hx
      refine hCframe x (by rw [hS22h]; exact fun hc => by have := (hboundB x hx).1; omega) ?_
      exact fun hc => by
        have := (hboundB x hx).1
        have := w.boundLt x hc
        omega
  have wFinal : WFc ((Clear (swapOp B.1 l B.2).1 (swapOp B.1 l B.2).2.2).1.freeAt h.fresh)
      (swapOp B.1 l B.2).2.1 bs nvs := by
    refine wS1C.transport (by rw [fresh_freeAt]) ?_ ?_
    · rw [mem_freeAt_ne _ (hS21h ▸ hheadNe)]
    · intro x hx
      rw [mem_freeAt_ne _ (fun hc => by have := (hboundB x hx).1; omega)]
  rw [hassign]
  refine ⟨bs, wFinal, ?_, hS21h, hS21s, ?_, ?_⟩
  · intro x hx
    have := (hboundB x hx).1
    omega
  · show h.fresh ≤ ((Clear (swapOp B.1 l B.2).1 (swapOp B.1 l B.2).2.2).1.freeAt h.fresh).fresh
    rw [fresh_freeAt, hCfr, hSfr]
    omega
  · intro x hxf hxh hxas
    show ((Clear (swapOp B.1 l B.2).1 (swapOp B.1 l B.2).2.2).1.freeAt h.fresh).mem x = h.mem x
    rw [mem_freeAt_ne _ (Nat.ne_of_lt hxf),
      hCframe x (by rw [hS22h]; exact Nat.ne_of_lt hxf) hxas,
      hSmem x hxh (Nat.ne_of_lt hxf), hagAll x hxf]

theorem mkFromList_wfc [Inhabited α] (h : Heap α) (nvs : List α) :
    ∃ bs, WFc (mkFromList h nvs).1 (mkFromList h nvs).2 bs nvs := by
  obtain ⟨bs, wf, -⟩ := assign_spec (mkList_wfc h) nvs
  exact ⟨bs, wf⟩

theorem copyCtor_wfc [Inhabited α] {h : Heap α} {r : ListH} {asr : List Nat} {vsr : List α}
    (wr : WFc h r asr vsr) :
    ∃ bs, WFc (copyCtor h r).1 (copyCtor h r).2 bs vsr ∧
      (∀ x ∈ bs, h.fresh < x) ∧
      (copyCtor h r).2.head_ = h.fresh ∧
      h.fresh ≤ (copyCtor h r).1.fresh ∧
      (∀ x, x < h.fresh → (copyCtor h r).1.mem x = h.mem x) := by
  have hmf : (mkList h).1.fresh = h.fresh + 1 := fresh_alloc h _
  have hlv : listVals h r = vsr := wr.listVals_eq
  obtain ⟨bs, wf, hgt, hhead, -, hfr, hframe⟩ := assign_spec (mkList_wfc h) (listVals h r)
  rw [hmf] at hfr
  refine ⟨bs, ?_, ?_, hhead, ?_, ?_⟩
  · rw [← hlv]
    exact wf
  · intro x hx
    have := hgt x hx
    rw [hmf] at this
    omega
  · show h.fresh ≤ (assign (mkList h).1 (mkList h).2 (listVals h r)).1.fresh
    omega
  · intro x hx
    have hx1 : x < (mkList h).1.fresh := by rw [hmf]; omega
    have h2 := hframe x hx1 (Nat.ne_of_lt hx) (List.not_mem_nil x)
    rw [show (copyCtor h r).1.mem x
        = (assign (mkList h).1 (mkList h).2 (listVals h r)).1.mem x from rfl, h2]
    show (h.alloc (⟨default, none⟩ : Node α)).1.mem x = h.mem x
    exact mem_alloc_ne h _ (Nat.ne_of_lt hx)

theorem assignOp_wf [Inhabited α] {h : Heap α} {l r : ListH}
    (wl : WF h l) (wr : WF h r) : WF (assignOp h l r).1 (assignOp h l r).2 := by
  obtain ⟨asl, vsl, wl⟩ := wl
  obtain ⟨asr, vsr, wr⟩ := wr
  by_cases hid : l.head_ = r.head_
  · have : assignOp h l r = (h, l) := by
      unfold assignOp
      rw [if_pos hid]
    rw [this]
    exact ⟨asl, vsl, wl⟩
  · have hassign : assignOp h l r
        = ((Clear (swapOp (copyCtor h r).1 l (copyCtor h r).2).1
              (swapOp (copyCtor h r).1 l (copyCtor h r).2).2.2).1.freeAt (copyCtor h r).2.head_,
           (swapOp (copyCtor h r).1 l (copyCtor h r).2).2.1) := by
      unfold assignOp
      rw [if_neg hid]
    obtain ⟨bs, wc, hgt, hchead, hcfr, hcframe⟩ := copyCtor_wfc wr
    have hheadNe : l.head_ ≠ h.fresh := Nat.ne_of_lt wl.sentinelLt
    have hheadNotinBs : l.head_ ∉ bs := fun hc => by
      have := hgt _ hc
      have := wl.sentinelLt
      omega
    have hfreshNotinAsl : (copyCtor h r).2.head_ ∉ asl := by
      rw [hchead]
      exact fun hc => by have := wl.boundLt _ hc; omega
    have wlC : WFc (copyCtor h r).1 l asl vsl :=
      wl.transport hcfr (hcframe _ wl.sentinelLt) (fun x hx => hcframe x (wl.boundLt x hx))
    obtain ⟨wS1, wS2⟩ := swapOp_wfc wlC wc
      (by rw [hchead]; exact hheadNe) hheadNotinBs hfreshNotinAsl
    obtain ⟨wC, -, hCfr, hCframe⟩ := Clear_wfc wS2
    have hS22h : (swapOp (copyCtor h r).1 l (copyCtor h r).2).2.2.head_
        = (copyCtor h r).2.head_ := rfl
    have hS21h : (swapOp (copyCtor h r).1 l (copyCtor h r).2).2.1.head_ = l.head_ := rfl
    have wS1C : WFc (Clear (swapOp (copyCtor h r).1 l (copyCtor h r).2).1
          (swapOp (copyCtor h r).1 l (copyCtor h r).2).2.2).1
        (swapOp (copyCtor h r).1 l (copyCtor h r).2).2.1 bs vsr := by
      refine wS1.transport (by rw [hCfr]) ?_ ?_
      · rw [hCframe _ (by rw [hS22h, hchead]; exact hS21h ▸ hheadNe) (hS21h ▸ wl.headNotIn)]
      · intro x hx
        refine hCframe x
          (by rw [hS22h, hchead]; exact fun hc => by have := hgt x hx; omega) ?_
        exact fun hc => by
          have := hgt x hx
          have := wl.boundLt x hc
          omega
    have wFinal : WFc ((Clear (swapOp (copyCtor h r).1 l (copyCtor h r).2).1
          (swapOp (copyCtor h r).1 l (copyCtor h r).2).2.2).1.freeAt (copyCtor h r).2.head_)
        (swapOp (copyCtor h r).1 l (copyCtor h r).2).2.1 bs vsr := by
      refine wS1C.transport (by rw [fresh_freeAt]) ?_ ?_
      · rw [mem_freeAt_ne _ (by rw [hchead]; exact hS21h ▸ hheadNe)]
      · intro x hx
        rw [mem_freeAt_ne _ (by rw [hchead]; exact fun hc => by have := hgt x hx; omega)]
    rw [hassign]
    exact ⟨bs, vsr, wFinal⟩

theorem InsertAfter_wfc {h : Heap α} {l : ListH} {as : List Nat} {vs : List α}
    (w : WFc h l as vs) {p : Nat} (hp : p = l.head_ ∨ p ∈ as) (v : α) :
    ∃ bs ws, WFc (InsertAfter h l ⟨some p⟩ v).1 (InsertAfter h l ⟨some p⟩ v).2.1 bs ws ∧
      bs.length = as.length + 1 := by
  rcases hp with rfl | hp
  · exact ⟨h.fresh :: as, v :: vs, PushFront_wfc w v, by simp⟩
  · have hph : p ≠ l.head_ := by
      rintro rfl
      exact w.headNotIn hp
    obtain ⟨n, hmem⟩ := Option.isSome_iff_exists.mp (w.chain.mem_isSome hp)
    obtain ⟨as1, as2, vs1, vs2, he1, he2, hlen, hchain⟩ :=
      ChainV.insert_mid v hmem w.chain w.nodup w.boundLt hp
    have hfr2 : ((h.alloc ⟨v, nextOf h p⟩).1.setNext p (some h.fresh)).fresh = h.fresh + 1 := by
      rw [fresh_setNext, fresh_alloc]
    have hsent : ((h.alloc ⟨v, nextOf h p⟩).1.setNext p (some h.fresh)).mem l.head_
        = h.mem l.head_ := by
      rw [mem_setNext_ne _ _ (Ne.symm hph), mem_alloc_ne h _ (Nat.ne_of_lt w.sentinelLt)]
    have hperm : (as1 ++ p :: h.fresh :: as2).Perm (h.fresh :: as) := by
      rw [he1]
      simpa using @List.perm_middle Nat h.fresh (as1 ++ [p]) as2
    have hfna : h.fresh ∉ as := fun hc => by have := w.boundLt _ hc; omega
    refine ⟨as1 ++ p :: h.fresh :: as2, vs1 ++ n.value :: v :: vs2,
      ⟨?_, ?_, ?_, ?_, ?_, ?_, ?_⟩, ?_⟩
    · show (((h.alloc ⟨v, nextOf h p⟩).1.setNext p (some h.fresh)).mem l.head_).isSome
      rw [hsent]
      exact w.sentinel
    · show l.head_ < ((h.alloc ⟨v, nextOf h p⟩).1.setNext p (some h.fresh)).fresh
      rw [hfr2]
      have := w.sentinelLt
      omega
    · show ChainV ((h.alloc ⟨v, nextOf h p⟩).1.setNext p (some h.fresh))
        (headNext ((h.alloc ⟨v, nextOf h p⟩).1.setNext p (some h.fresh))
          ⟨l.head_, l.size_ + 1⟩) (as1 ++ p :: h.fresh :: as2) (vs1 ++ n.value :: v :: vs2)
      have hh : headNext ((h.alloc ⟨v, nextOf h p⟩).1.setNext p (some h.fresh))
          ⟨l.head_, l.size_ + 1⟩ = headNext h l := nextOf_congr hsent
      rw [hh]
      exact hchain
    · show (as1 ++ p :: h.fresh :: as2).length = l.size_ + 1
      have := w.sizeEq
      rw [he1] at this
      simp only [List.length_append, List.length_cons] at this ⊢
      omega
    · exact hperm.nodup_iff.mpr (List.nodup_cons.mpr ⟨hfna, w.nodup⟩)
    · intro hx
      rcases List.mem_cons.mp (hperm.mem_iff.mp hx) with he | hx2
      · exact Nat.ne_of_lt w.sentinelLt he
      · exact w.headNotIn hx2
    · intro x hx
      show x < ((h.alloc ⟨v, nextOf h p⟩).1.setNext p (some h.fresh)).fresh
      rw [hfr2]
      rcases List.mem_cons.mp (hperm.mem_iff.mp hx) with rfl | hx2
      · omega
      · have := w.boundLt x hx2
        omega
    · rw [he1]
      simp only [List.length_append, List.length_cons]
      omega

theorem EraseAfter_spec {h : Heap α} {l : ListH} {as : List Nat} {vs : List α}
    (w : WFc h l as vs) {p d : Nat} (hp : p = l.head_ ∨ p ∈ as)
    (hnx : nextOf h p = some d) :
    ∃ k, (l.head_ :: as)[k]? = some p ∧ as[k]? = some d ∧
      WFc (EraseAfter h l ⟨some p⟩).1 (EraseAfter h l ⟨some p⟩).2.1
        (as.eraseIdx k) (vs.eraseIdx k) ∧
      (EraseAfter h l ⟨some p⟩).2.1 = ⟨l.head_, l.size_ - 1⟩ ∧
      (EraseAfter h l ⟨some p⟩).2.2.node_ = as[k + 1]? ∧
      (h.mem d).isSome ∧ (EraseAfter h l ⟨some p⟩).1.mem d = none := by
  have hE : EraseAfter h l ⟨some p⟩
      = ((h.setNext p (nextOf h d)).freeAt d, ⟨l.head_, l.size_ - 1⟩,
         ⟨nextOf ((h.setNext p (nextOf h d)).freeAt d) p⟩) := by
    simp only [EraseAfter, hnx]
  rcases hp with rfl | hp
  · -- pos is the sentinel (before_begin); this is the PopFront shape
    have hhd : headNext h l = some d := hnx
    have hch2 := w.chain
    rw [hhd] at hch2
    cases hch2 with
    | cons hm2 hc2 =>
    rename_i m as2 vs2
    obtain ⟨w2, hl2, hmemd, hfr2, hframe2, hpop⟩ := PopFront_cons w
    obtain ⟨sn, hsn⟩ := Option.isSome_iff_exists.mp w.sentinel
    have hhd2 : l.head_ ≠ d := fun he => w.headNotIn (he ▸ List.mem_cons_self d as2)
    rw [hpop] at w2 hmemd
    refine ⟨0, by simp, by simp, ?_, by rw [hE], ?_, by simp [hm2], ?_⟩
    · rw [hE]
      simpa using w2
    · rw [hE]
      show nextOf ((h.setNext l.head_ (nextOf h d)).freeAt d) l.head_ = (d :: as2)[0 + 1]?
      rw [nextOf_eq_of_mem (by rw [mem_freeAt_ne _ hhd2, mem_setNext_self hsn])]
      show nextOf h d = (d :: as2)[0 + 1]?
      rw [nextOf_eq_of_mem hm2]
      simpa using hc2.head_eq
    · rw [hE]
      exact mem_freeAt_self _ d
  · -- pos is a real node of the chain
    obtain ⟨n, hmem⟩ := Option.isSome_iff_exists.mp (w.chain.mem_isSome hp)
    have hnext : n.next_node = some d := by
      rw [nextOf_eq_of_mem hmem] at hnx
      exact hnx
    obtain ⟨as1, as2, vs1, vs2, m, hm2, he1, he2, hlen, hchain⟩ :=
      ChainV.erase_mid hmem hnext w.chain w.nodup hp
    have hph : p ≠ l.head_ := by
      rintro rfl
      exact w.headNotIn hp
    have hnd2 : (p :: d :: as2).Nodup := by
      have := w.nodup
      rw [he1] at this
      exact this.of_append_right
    have hpd : p ≠ d := fun he => (List.nodup_cons.mp hnd2).1 (he ▸ List.mem_cons_self d as2)
    have hd_in : d ∈ as := by rw [he1]; simp
    have hhd2 : l.head_ ≠ d := fun he => w.headNotIn (he ▸ hd_in)
    have hsent : ((h.setNext p (nextOf h d)).freeAt d).mem l.head_ = h.mem l.head_ := by
      rw [mem_freeAt_ne _ hhd2, mem_setNext_ne _ _ (Ne.symm hph)]
    have hfrE : ((h.setNext p (nextOf h d)).freeAt d).fresh = h.fresh := by
      rw [fresh_freeAt, fresh_setNext]
    have hmemp : ((h.setNext p (nextOf h d)).freeAt d).mem p
        = some { n with next_node := nextOf h d } := by
      rw [mem_freeAt_ne _ hpd, mem_setNext_self hmem]
    have heA : as.eraseIdx (as1.length + 1) = as1 ++ p :: as2 := by
      rw [he1, (by simp : as1 ++ p :: d :: as2 = (as1 ++ [p]) ++ d :: as2),
        (by simp : as1.length + 1 = (as1 ++ [p]).length), eraseIdx_append_length]
      simp
    have heV : vs.eraseIdx (as1.length + 1) = vs1 ++ n.value :: vs2 := by
      rw [he2, (by simp : vs1 ++ n.value :: m.value :: vs2 = (vs1 ++ [n.value]) ++ m.value :: vs2),
        (by simp [hlen] : as1.length + 1 = (vs1 ++ [n.value]).length), eraseIdx_append_length]
      simp
    have hperm : as.Perm (d :: (as1 ++ p :: as2)) := by
      rw [he1]
      simpa using @List.perm_middle Nat d (as1 ++ [p]) as2
    have hgetp : (as1 ++ p :: as2)[as1.length]? = some p := getElem?_append_length_cons _ _ _
    refine ⟨as1.length + 1, ?_, ?_, ?_, by rw [hE], ?_, by simp [hm2], ?_⟩
    · rw [List.getElem?_cons_succ, he1]
      exact getElem?_append_length_cons _ _ _
    · rw [he1, (by simp : as1 ++ p :: d :: as2 = (as1 ++ [p]) ++ d :: as2)]
      have := getElem?_append_length_cons (as1 ++ [p]) d as2
      simpa using this
    · rw [hE, heA, heV]
      refine ⟨?_, ?_, ?_, ?_, ?_, ?_, ?_⟩
      · show (((h.setNext p (nextOf h d)).freeAt d).mem l.head_).isSome
        rw [hsent]
        exact w.sentinel
      · show l.head_ < ((h.setNext p (nextOf h d)).freeAt d).fresh
        rw [hfrE]
        exact w.sentinelLt
      · show ChainV ((h.setNext p (nextOf h d)).freeAt d)
          (headNext ((h.setNext p (nextOf h d)).freeAt d) ⟨l.head_, l.size_ - 1⟩)
          (as1 ++ p :: as2) (vs1 ++ n.value :: vs2)
        have hh : headNext ((h.setNext p (nextOf h d)).freeAt d) ⟨l.head_, l.size_ - 1⟩
            = headNext h l := nextOf_congr hsent
        rw [hh]
        exact hchain
      · show (as1 ++ p :: as2).length = l.size_ - 1
        have := w.sizeEq
        rw [he1] at this
        simp only [List.length_append, List.length_cons] at this ⊢
        omega
      · exact (List.nodup_cons.mp (hperm.nodup_iff.mp w.nodup)).2
      · exact fun hx => w.headNotIn (hperm.mem_iff.mpr (List.mem_cons_of_mem d hx))
      · intro x hx
        show x < ((h.setNext p (nextOf h d)).freeAt d).fresh
        rw [hfrE]
        exact w.boundLt x (hperm.mem_iff.mpr (List.mem_cons_of_mem d hx))
    · rw [hE]
      show nextOf ((h.setNext p (nextOf h d)).freeAt d) p = as[as1.length + 1 + 1]?
      have h5 := hchain.succ_eq as1.length p hgetp
      rw [h5, (by simp : as1 ++ p :: as2 = (as1 ++ [p]) ++ as2),
        (by simp : as1.length + 1 = (as1 ++ [p]).length), getElem?_append_length,
        he1, (by simp : as1 ++ p :: d :: as2 = (as1 ++ [p, d]) ++ as2),
        (by simp : (as1 ++ [p]).length + 1 = (as1 ++ [p, d]).length), getElem?_append_length]
    · rw [hE]
      exact mem_freeAt_self _ d

/-- Spec-side lexicographic order, written from the spec's words for
comparison against the source's `operator<`: the first index where the two
sequences differ decides (a shared prefix, then a strictly smaller element
on the left), and if one sequence is an exhausted strict prefix of the
other, the shorter sequence is less. -/
def specLexLt [LT α] (a b : List α) : Prop :=
  (∃ pre x y xs ys, a = pre ++ x :: xs ∧ b = pre ++ y :: ys ∧ x < y) ∨
  (∃ y ys, b = a ++ y :: ys)

theorem lexCompare_iff_specLexLt [LinearOrder α] :
    ∀ a b : List α, lexCompare a b = true ↔ specLexLt a b := by
  intro a
  induction a with
  | nil =>
    intro b
    cases b with
    | nil =>
      constructor
      · intro hcon
        simp [lexCompare] at hcon
      · rintro (⟨pre, x, y, xs, ys, h1, h2, hr⟩ | ⟨y, ys, h2⟩)
        · exact absurd h1 (by simp)
        · exact absurd h2 (by simp)
    | cons y ys =>
      constructor
      · intro _
        exact Or.inr ⟨y, ys, rfl⟩
      · intro _
        rfl
  | cons x xs ih =>
    intro b
    cases b with
    | nil =>
      constructor
      · intro hcon
        simp [lexCompare] at hcon
      · rintro (⟨pre, u, v, us, vs, h1, h2, hr⟩ | ⟨y, ys, h2⟩)
        · exact absurd h2 (by simp)
        · exact absurd h2 (by simp)
    | cons y ys =>
      rcases lt_trichotomy x y with hlt | heq | hgt
      · constructor
        · intro _
          exact Or.inl ⟨[], x, y, xs, ys, rfl, rfl, hlt⟩
        · intro _
          simp [lexCompare, hlt]
      · subst heq
        have hstep : lexCompare (x :: xs) (x :: ys) = lexCompare xs ys := by
          simp [lexCompare]
        rw [hstep, ih ys]
        constructor
        · rintro (⟨pre, u, v, us, vs, h1, h2, hr⟩ | ⟨u, us, h2⟩)
          · exact Or.inl ⟨x :: pre, u, v, us, vs, by rw [h1]; rfl, by rw [h2]; rfl, hr⟩
          · exact Or.inr ⟨u, us, by rw [h2]; rfl⟩
        · rintro (⟨pre, u, v, us, vs, h1, h2, hr⟩ | ⟨u, us, h2⟩)
          · cases pre with
            | nil =>
              simp at h1 h2
              rw [← h1.1, ← h2.1] at hr
              exact absurd hr (lt_irrefl x)
            | cons c pre =>
              simp at h1 h2
              exact Or.inl ⟨pre, u, v, us, vs, h1.2, h2.2, hr⟩
          · simp at h2
            exact Or.inr ⟨u, us, h2⟩
      · constructor
        · intro hcon
          rw [show lexCompare (x :: xs) (y :: ys) = false from by
            simp [lexCompare, asymm hgt, hgt]] at hcon
          exact Bool.noConfusion hcon
        · rintro (⟨pre, u, v, us, vs, h1, h2, hr⟩ | ⟨u, us, h2⟩)
          · cases pre with
            | nil =>
              simp at h1 h2
              rw [← h1.1, ← h2.1] at hr
              exact absurd hr (asymm hgt)
            | cons c pre =>
              simp at h1 h2
              refine absurd (h1.1.trans h2.1.symm) fun he => ?_
              rw [he] at hgt
              exact lt_irrefl y hgt
          · simp at h2
            exact absurd h2.1 (ne_of_lt hgt)

/-! ### Concrete demonstration states -/

/-- The empty heap. -/
def demoHeap0 : Heap Int :=
  { mem := fun _ => none, fresh := 0 }

/-- A default-constructed list `A`. -/
def demoA : Heap Int × ListH :=
  mkList demoHeap0

/-- A second default-constructed list `B` in the same heap. -/
def demoB : Heap Int × ListH :=
  mkList demoA.1

/-- `A.PushFront(5)`. -/
def demoA2 : Heap Int × ListH :=
  PushFront demoB.1 demoA.2 5

/-- `B.PushFront(7)`. -/
def demoB2 : Heap Int × ListH :=
  PushFront demoA2.1 demoB.2 7

/-- The list `{1, 2, 3}` built by the initializer-list constructor. -/
def demo123 : Heap Int × ListH :=
  mkFromList demoHeap0 [1, 2, 3]

/-- A one-element list `{5}` built by `PushFront` on a fresh list. -/
def demoPush : Heap Int × ListH :=
  PushFront (mkList demoHeap0).1 (mkList demoHeap0).2 5

/-! ### The claims -/

/-- C1: the spec says the free `operator>` is derived from less-than and
equal in the conventional total-order combination `!(a < b) && a != b`
(equivalently `b < a`).  The source instead computes
`!operator<(lhs, rhs) || operator!=(lhs, rhs)` — `||` where the convention
needs `&&` — so `a > b` holds whenever `a != b`, and even when `a == b`
(the operator is constantly true).  At lhs = {1}, rhs = {2} the code
returns true while both conventional forms return false; it also returns
true at lhs = rhs = {1}. -/
theorem spec_C1_gt_operator_bug :
    gtOp ([1] : List Int) [2] = true ∧
    (!ltOp ([1] : List Int) [2] && neOp [1] [2]) = false ∧
    ltOp ([2] : List Int) [1] = false ∧
    ltOp ([1] : List Int) [2] = true ∧
    gtOp ([1] : List Int) [1] = true ∧
    eqOp ([1] : List Int) [1] = true := by
  decide

/-- C5: `InsertAfter(before_begin(), v)` and `PushFront(v)` produce
identical results — the same resulting heap and the same list object —
hence in particular the same size and the same element sequence. -/
theorem spec_C5_insert_before_begin_eq_pushfront {α : Type} (h : Heap α) (l : ListH) (v : α) :
    (InsertAfter h l (beforeBegin l) v).1 = (PushFront h l v).1 ∧
    (InsertAfter h l (beforeBegin l) v).2.1 = (PushFront h l v).2 ∧
    GetSize (InsertAfter h l (beforeBegin l) v).2.1 = GetSize (PushFront h l v).2 ∧
    listVals (InsertAfter h l (beforeBegin l) v).1 (InsertAfter h l (beforeBegin l) v).2.1
      = listVals (PushFront h l v).1 (PushFront h l v).2 :=
  ⟨rfl, rfl, rfl, rfl⟩

/-- C8: the free `operator<` is exactly the lexicographic comparison of the
two element sequences — the first index where they differ decides, and a
sequence that is an exhausted strict prefix of the other is smaller — and
in particular `{1,2,3} < {1,2,4}` and `{1,2} < {1,2,3}`. -/
theorem spec_C8_lexicographic :
    (∀ {α : Type} [LinearOrder α] (a b : List α), ltOp a b = true ↔ specLexLt a b) ∧
    ltOp ([1, 2, 3] : List Int) [1, 2, 4] = true ∧
    ltOp ([1, 2] : List Int) [1, 2, 3] = true := by
  refine ⟨?_, by decide, by decide⟩
  intro α _ a b
  exact lexCompare_iff_specLexLt a b

/-- C10: on an empty list (cached size 0 and null sentinel next-link) the
guard `if (IsEmpty() && head_.next_node == nullptr) return;` fires and
`PopFront` returns without modifying the list. -/
theorem spec_C10_popfront_empty_noop {α : Type} (h : Heap α) (l : ListH)
    (hsz : l.size_ = 0) (hnx : headNext h l = none) :
    PopFront h l = (h, l) :=
  PopFront_empty hsz hnx

theorem spec_C10_popfront_empty_noop_witness :
    (mkList demoHeap0).2.size_ = 0 ∧
    headNext (mkList demoHeap0).1 (mkList demoHeap0).2 = none ∧
    PopFront (mkList demoHeap0).1 (mkList demoHeap0).2
      = ((mkList demoHeap0).1, (mkList demoHeap0).2) :=
  ⟨rfl, rfl, spec_C10_popfront_empty_noop _ _ rfl rfl⟩

/-- C2: `BasicIterator::operator==` (the mutable and read-only
instantiations share this implementation) holds exactly when both cursors
are null, or neither is null and the `next_node` links of the two
referenced nodes are identical.  Consequently two iterators referencing
genuinely different nodes compare equal when those nodes share the same
successor: here the begin iterators of the distinct singleton lists {5}
and {7} reference different nodes (holding different values) yet compare
equal, since both nodes' next-links are null. -/
theorem spec_C2_iterator_eq :
    (∀ {α : Type} (h : Heap α) (i j : Iter),
      iterEq h i j = true ↔
        (i.node_ = none ∧ j.node_ = none) ∨
        (∃ a b, i.node_ = some a ∧ j.node_ = some b ∧ nextOf h a = nextOf h b)) ∧
    (iterEq demoB2.1 (beginIt demoB2.1 demoA2.2) (beginIt demoB2.1 demoB2.2) = true ∧
     (beginIt demoB2.1 demoA2.2).node_ ≠ (beginIt demoB2.1 demoB2.2).node_ ∧
     iterDeref demoB2.1 (beginIt demoB2.1 demoA2.2) = some 5 ∧
     iterDeref demoB2.1 (beginIt demoB2.1 demoB2.2) = some 7) := by
  constructor
  · intro α h i j
    obtain ⟨ci⟩ := i
    obtain ⟨cj⟩ := j
    cases ci with
    | none =>
      cases cj with
      | none => simp [iterEq]
      | some b => simp [iterEq]
    | some a =>
      cases cj with
      | none => simp [iterEq]
      | some b => simp [iterEq]
  · exact ⟨by decide, by decide, by decide, by decide⟩

/-- C6: when the element copy performed inside `new Node(value, ...)`
fails, the exception propagates before `pos.node_->next_node` is
rewritten, so the caller observes the heap and the list exactly as they
were: size and element sequence unchanged (strong guarantee). -/
theorem spec_C6_insert_strong_guarantee {α : Type} (cp : α → Option α) (h : Heap α)
    (l : ListH) (p : Nat) (v : α) (hfail : cp v = none) :
    InsertAfterF cp h l ⟨some p⟩ v = Except.error (h, l) ∧
    ∀ hs ls, InsertAfterF cp h l ⟨some p⟩ v = Except.error (hs, ls) →
      hs = h ∧ ls = l ∧ listVals hs ls = listVals h l ∧ ls.size_ = l.size_ := by
  have he : InsertAfterF cp h l ⟨some p⟩ v = Except.error (h, l) := by
    simp only [InsertAfterF, hfail]
  refine ⟨he, ?_⟩
  intro hs ls hek
  rw [he] at hek
  injection hek with h2
  rw [Prod.mk.injEq] at h2
  obtain ⟨h3, h4⟩ := h2
  subst h3
  subst h4
  exact ⟨rfl, rfl, rfl, rfl⟩

theorem spec_C6_insert_strong_guarantee_witness :
    ((fun _ : Int => (none : Option Int)) 3 = none) ∧
    InsertAfterF (fun _ => none) demoPush.1 demoPush.2 ⟨some demoPush.2.head_⟩ 3
      = Except.error (demoPush.1, demoPush.2) :=
  ⟨rfl, (spec_C6_insert_strong_guarantee _ _ _ _ _ rfl).1⟩

/-- Dereferencing `begin()` on a list whose first stored value is `v`
yields `v`. -/
theorem deref_begin {h : Heap α} {l : ListH} {as : List Nat} {v : α} {vs : List α}
    (w : WFc h l as (v :: vs)) : iterDeref h (beginIt h l) = some v := by
  have hc := w.chain
  generalize hq : headNext h l = c at hc
  cases hc with
  | cons hm _ =>
    show iterDeref h ⟨headNext h l⟩ = some _
    rw [hq]
    simp [iterDeref, hm]

/-- C7: after `PushFront(v)` the cached size is exactly one greater than
before and `*begin()` yields `v`; the element sequence gains `v` at the
front. -/
theorem spec_C7_pushfront {α : Type} (h : Heap α) (l : ListH) (as : List Nat) (vs : List α)
    (v : α) (w : WFc h l as vs) :
    (PushFront h l v).2.size_ = l.size_ + 1 ∧
    iterDeref (PushFront h l v).1 (beginIt (PushFront h l v).1 (PushFront h l v).2) = some v ∧
    listVals (PushFront h l v).1 (PushFront h l v).2 = v :: vs := by
  have w2 := PushFront_wfc w v
  exact ⟨rfl, deref_begin w2, w2.listVals_eq⟩

theorem spec_C7_pushfront_witness :
    WFc (mkList demoHeap0).1 (mkList demoHeap0).2 [] [] ∧
    demoPush.2.size_ = (mkList demoHeap0).2.size_ + 1 ∧
    iterDeref demoPush.1 (beginIt demoPush.1 demoPush.2) = some 5 ∧
    listVals demoPush.1 demoPush.2 = [5] :=
  ⟨mkList_wfc demoHeap0, spec_C7_pushfront _ _ [] [] 5 (mkList_wfc demoHeap0)⟩

/-- C9: for a non-empty well-formed list, pre-incrementing the
before-begin iterator yields an iterator equal — under the source's
iterator equality operator — to `begin()`. -/
theorem spec_C9_inc_before_begin {α : Type} (h : Heap α) (l : ListH)
    (hwf : WF h l) (hne : 0 < l.size_) :
    iterEq h (iterInc h (beforeBegin l)) (beginIt h l) = true := by
  show iterEq h ⟨headNext h l⟩ ⟨headNext h l⟩ = true
  cases hq : headNext h l with
  | none => rfl
  | some a => simp [iterEq]

theorem spec_C9_inc_before_begin_witness :
    WF demoPush.1 demoPush.2 ∧ 0 < demoPush.2.size_ ∧
    iterEq demoPush.1 (iterInc demoPush.1 (beforeBegin demoPush.2))
      (beginIt demoPush.1 demoPush.2) = true :=
  ⟨⟨_, _, PushFront_wfc (mkList_wfc demoHeap0) 5⟩, by decide,
    spec_C9_inc_before_begin _ _ ⟨_, _, PushFront_wfc (mkList_wfc demoHeap0) 5⟩ (by decide)⟩

/-- C3: the representation invariant `WF` — the cached `size_` equals the
number of nodes reachable by following `head_.next_node` until null, the
sentinel itself not counted (witnessed by a live, acyclic chain of
allocated addresses) — holds for a default-constructed list and is
preserved by every public operation: initializer-list construction, copy
construction, copy-assignment, swap of two distinct lists, `PushFront`,
`PopFront`, `Clear`, `InsertAfter` at a valid position, and `EraseAfter`
at a valid position. -/
theorem spec_C3_size_invariant {α : Type} [Inhabited α] :
    (∀ h : Heap α, WF (mkList h).1 (mkList h).2) ∧
    (∀ (h : Heap α) (nvs : List α), WF (mkFromList h nvs).1 (mkFromList h nvs).2) ∧
    (∀ (h : Heap α) (r : ListH) (asr : List Nat) (vsr : List α), WFc h r asr vsr →
      WF (copyCtor h r).1 (copyCtor h r).2) ∧
    (∀ (h : Heap α) (l r : ListH), WF h l → WF h r →
      WF (assignOp h l r).1 (assignOp h l r).2) ∧
    (∀ (h : Heap α) (a b : ListH) (asa : List Nat) (vsa : List α) (asb : List Nat)
      (vsb : List α), WFc h a asa vsa → WFc h b asb vsb → a.head_ ≠ b.head_ →
      a.head_ ∉ asb → b.head_ ∉ asa →
      WF (swapOp h a b).1 (swapOp h a b).2.1 ∧ WF (swapOp h a b).1 (swapOp h a b).2.2) ∧
    (∀ (h : Heap α) (l : ListH) (v : α), WF h l →
      WF (PushFront h l v).1 (PushFront h l v).2) ∧
    (∀ (h : Heap α) (l : ListH), WF h l → WF (PopFront h l).1 (PopFront h l).2) ∧
    (∀ (h : Heap α) (l : ListH), WF h l → WF (Clear h l).1 (Clear h l).2) ∧
    (∀ (h : Heap α) (l : ListH) (as : List Nat) (vs : List α) (p : Nat) (v : α),
      WFc h l as vs → p = l.head_ ∨ p ∈ as →
      WF (InsertAfter h l ⟨some p⟩ v).1 (InsertAfter h l ⟨some p⟩ v).2.1) ∧
    (∀ (h : Heap α) (l : ListH) (as : List Nat) (vs : List α) (p : Nat),
      WFc h l as vs → p = l.head_ ∨ p ∈ as →
      WF (EraseAfter h l ⟨some p⟩).1 (EraseAfter h l ⟨some p⟩).2.1) := by
  refine ⟨?_, ?_, ?_, ?_, ?_, ?_, ?_, ?_, ?_, ?_⟩
  · intro h
    exact ⟨[], [], mkList_wfc h⟩
  · intro h nvs
    obtain ⟨bs, wf⟩ := mkFromList_wfc h nvs
    exact ⟨bs, nvs, wf⟩
  · intro h r asr vsr wr
    obtain ⟨bs, wf, -⟩ := copyCtor_wfc wr
    exact ⟨bs, vsr, wf⟩
  · intro h l r wl wr
    exact assignOp_wf wl wr
  · intro h a b asa vsa asb vsb wa wb hab hanb hbna
    obtain ⟨w1, w2⟩ := swapOp_wfc wa wb hab hanb hbna
    exact ⟨⟨asb, vsb, w1⟩, ⟨asa, vsa, w2⟩⟩
  · intro h l v wl
    obtain ⟨as, vs, w⟩ := wl
    exact ⟨_, _, PushFront_wfc w v⟩
  · intro h l wl
    obtain ⟨as, vs, w⟩ := wl
    cases as with
    | nil =>
      have h0 : vs.length = 0 := by simpa using w.chain.length_eq.symm
      have hvs : vs = [] := List.length_eq_zero.mp h0
      subst hvs
      have hnone : headNext h l = none := by simpa using w.chain.head_eq
      have hsz : l.size_ = 0 := by simpa using w.sizeEq.symm
      rw [PopFront_empty hsz hnone]
      exact ⟨[], [], w⟩
    | cons a as2 =>
      cases vs with
      | nil =>
        exfalso
        have := w.chain.length_eq
        simp at this
      | cons v vs2 =>
        obtain ⟨w2, -, -, -, -, -⟩ := PopFront_cons w
        exact ⟨as2, vs2, w2⟩
  · intro h l wl
    obtain ⟨as, vs, w⟩ := wl
    obtain ⟨wc, -, -, -⟩ := Clear_wfc w
    exact ⟨[], [], wc⟩
  · intro h l as vs p v w hp
    obtain ⟨bs, ws, wf, -⟩ := InsertAfter_wfc w hp v
    exact ⟨bs, ws, wf⟩
  · intro h l as vs p w hp
    cases hnx : nextOf h p with
    | none =>
      have hee : EraseAfter h l ⟨some p⟩ = (h, l, ⟨none⟩) := by
        simp only [EraseAfter, hnx]
      rw [hee]
      exact ⟨as, vs, w⟩
    | some d =>
      obtain ⟨k, -, -, wf, -, -, -, -⟩ := EraseAfter_spec w hp hnx
      exact ⟨_, _, wf⟩

theorem spec_C3_size_invariant_witness :
    WF (mkList demoHeap0).1 (mkList demoHeap0).2 ∧ WF demoPush.1 demoPush.2 :=
  ⟨⟨[], [], mkList_wfc demoHeap0⟩,
    (spec_C3_size_invariant (α := Int)).2.2.2.2.2.1 (mkList demoHeap0).1 (mkList demoHeap0).2 5
      ⟨[], [], mkList_wfc demoHeap0⟩⟩

/-- C4: for a valid position `pos` (the sentinel or a node of the chain)
whose successor `d` exists, `EraseAfter(pos)` destroys exactly node `d` —
the node at the chain index immediately after `pos` — relinks around it,
decrements the size by one, and returns an iterator whose cursor is the
address now following `pos` (null, the end iterator, when `d` was last);
on `{1,2,3}`, `EraseAfter(begin())` yields `{1,3}` with size 2 and the
returned iterator dereferences to `3`. -/
theorem spec_C4_eraseAfter_correct :
    (∀ {α : Type} (h : Heap α) (l : ListH) (as : List Nat) (vs : List α) (p d : Nat),
      WFc h l as vs → p = l.head_ ∨ p ∈ as → nextOf h p = some d →
      ∃ k, (l.head_ :: as)[k]? = some p ∧ as[k]? = some d ∧
        (h.mem d).isSome ∧ (EraseAfter h l ⟨some p⟩).1.mem d = none ∧
        (EraseAfter h l ⟨some p⟩).2.1.size_ = l.size_ - 1 ∧
        WFc (EraseAfter h l ⟨some p⟩).1 (EraseAfter h l ⟨some p⟩).2.1
          (as.eraseIdx k) (vs.eraseIdx k) ∧
        listVals (EraseAfter h l ⟨some p⟩).1 (EraseAfter h l ⟨some p⟩).2.1
          = vs.eraseIdx k ∧
        (EraseAfter h l ⟨some p⟩).2.2.node_ = as[k + 1]?) ∧
    (listVals (EraseAfter demo123.1 demo123.2 (beginIt demo123.1 demo123.2)).1
        (EraseAfter demo123.1 demo123.2 (beginIt demo123.1 demo123.2)).2.1 = [1, 3] ∧
     (EraseAfter demo123.1 demo123.2 (beginIt demo123.1 demo123.2)).2.1.size_ = 2 ∧
     iterDeref (EraseAfter demo123.1 demo123.2 (beginIt demo123.1 demo123.2)).1
        (EraseAfter demo123.1 demo123.2 (beginIt demo123.1 demo123.2)).2.2 = some 3) := by
  constructor
  · intro α h l as vs p d w hp hnx
    obtain ⟨k, h1, h2, hwf, hl2, hit, hds, hdn⟩ := EraseAfter_spec w hp hnx
    refine ⟨k, h1, h2, hds, hdn, ?_, hwf, hwf.listVals_eq, hit⟩
    rw [hl2]
  · exact ⟨by decide, by decide, by decide⟩

theorem spec_C4_eraseAfter_correct_witness :
    WFc demoPush.1 demoPush.2 [(mkList demoHeap0).1.fresh] [5] ∧
    (demoPush.2.head_ = demoPush.2.head_ ∨
      demoPush.2.head_ ∈ [(mkList demoHeap0).1.fresh]) ∧
    nextOf demoPush.1 demoPush.2.head_ = some (mkList demoHeap0).1.fresh ∧
    (EraseAfter demoPush.1 demoPush.2 ⟨some demoPush.2.head_⟩).2.1.size_
      = demoPush.2.size_ - 1 := by
  have hw : WFc demoPush.1 demoPush.2 [(mkList demoHeap0).1.fresh] [5] :=
    PushFront_wfc (mkList_wfc demoHeap0) 5
  refine ⟨hw, Or.inl rfl, by decide, ?_⟩
  obtain ⟨k, -, -, -, -, hsz, -, -, -⟩ :=
    spec_C4_eraseAfter_correct.1 demoPush.1 demoPush.2 _ _ demoPush.2.head_
      (mkList demoHeap0).1.fresh hw (Or.inl rfl) (by decide)
  exact hsz

end SLL
